import Mathlib

/-!
Verification of the finding-extraction pipeline, the snippet-to-position
resolver and the per-document result store of the llm-code-review extension.

The development shallowly embeds the two source files:

* `src/llm-client.ts` — `findPositionByCodeSnippet` (snippet resolver) and
  `formatFunctionCallResults` (structured payload formatting);
* `src/extension.ts` — `_parseReviewItems` (freeform parser with
  deduplication and sorting), the line-oriented filters, `update`,
  `clearFileReviews` and `updateBadge` of `ReviewTreeDataProvider`, and the
  position conversion of `updateDiagnostics`.

Strings are processed as `List Char`.  JavaScript regular expressions in the
source are embedded by direct executable matchers that follow the
backtracking order of the engine (greedy and lazy quantifier priorities are
reproduced by the order in which candidate splits are enumerated).
-/

/-- JavaScript whitespace class `\s` restricted to the ASCII range
(space, tab, line feed, carriage return, vertical tab, form feed).
The source never feeds the exotic Unicode space characters to these
matchers, so the ASCII fragment is the relevant one. -/
def isSpace (c : Char) : Bool :=
  c == ' ' || c == '\t' || c == '\n' || c == '\r' || c == '\x0b' || c == '\x0c'

/-- Characters matched by `.` in a JavaScript regex without the `s` flag:
everything except the four line terminators. -/
def notLineTerm (c : Char) : Bool :=
  !(c == '\n' || c == '\r' || c == Char.ofNat 0x2028 || c == Char.ofNat 0x2029)

/-- Length of the maximal whitespace run at the head of the list
(the text a greedy `\s*` consumes). -/
def wsRunLen (l : List Char) : Nat :=
  (l.takeWhile isSpace).length

/-- Embedding of JavaScript `String.prototype.trim` (both ends). -/
def jsTrim (l : List Char) : List Char :=
  ((l.dropWhile isSpace).reverse.dropWhile isSpace).reverse

/-- Maximal non-whitespace runs of a string, in order: the chunks produced
by splitting on `/\s+/` with empty artifacts removed.  Tail-recursive
accumulator version so the kernel can evaluate it. -/
def wsChunksAux (acc : List Char) : List Char → List (List Char)
  | [] => if acc.isEmpty then [] else [acc.reverse]
  | c :: l =>
    if isSpace c then
      if acc.isEmpty then wsChunksAux [] l else acc.reverse :: wsChunksAux [] l
    else
      wsChunksAux (c :: acc) l

/-- Non-whitespace chunks of a character list. -/
def wsChunks (l : List Char) : List (List Char) :=
  wsChunksAux [] l

/-- Matching of the whitespace-tolerant snippet pattern at the head of a
text.  The source builds the pattern by escaping every regex metacharacter
of the snippet (which makes each chunk match itself literally) and replacing
every whitespace run by `\s+`; the pattern is therefore the chunk list of
the trimmed snippet joined by `\s+`.  Because every chunk starts with a
non-whitespace character, the greedy `\s+` deterministically consumes the
full whitespace run separating two chunks. -/
def matchPat : List (List Char) → List Char → Bool
  | [], _ => true
  | [t], l => t.isPrefixOf l
  | t :: ts, l =>
    let rest := l.drop t.length
    t.isPrefixOf l && !(rest.takeWhile isSpace).isEmpty &&
      matchPat ts (rest.dropWhile isSpace)

/-- Leftmost-match scan: the offset (counted from `idx`) of the first
position at which the token pattern matches, as `RegExp.exec` finds it. -/
def firstMatchAux (toks : List (List Char)) : List Char → Nat → Option Nat
  | l, idx =>
    if matchPat toks l then some idx
    else
      match l with
      | [] => none
      | _ :: t => firstMatchAux toks t (idx + 1)

/-- First index of `pat` as a contiguous substring of `hay`
(JavaScript `String.prototype.indexOf`). -/
def indexOfSub (hay pat : List Char) : Option Nat :=
  firstMatchAux [pat] hay 0

/-- Substring containment test (JavaScript `String.prototype.includes`). -/
def containsSub (hay pat : List Char) : Bool :=
  (indexOfSub hay pat).isSome

/-- Embedding of `doc.positionAt(offset)`: zero-based line and column of a
character offset, with the line the count of newline characters before the
offset and the column the distance from the last newline. -/
def positionAt (doc : String) (offset : Nat) : Nat × Nat :=
  let pre := doc.data.take offset
  (pre.countP (fun c => c == '\n'),
   (pre.reverse.takeWhile (fun c => !(c == '\n'))).length)

/-- Token list of the regex pass: the escaped snippet is trimmed and its
whitespace runs are generalized to `\s+`, so the pattern is determined by
the non-whitespace chunks of the trimmed snippet. -/
def snippetTokens (s : String) : List (List Char) :=
  wsChunks (jsTrim s.data)

/-- The whitespace-tolerant pattern of snippet `s` matches document `doc`
at offset `i`. -/
def snippetMatchAt (s doc : String) (i : Nat) : Bool :=
  matchPat (snippetTokens s) (doc.data.drop i)

/-- Offset of the first whitespace-tolerant match of the snippet in the
document: the regex pass of `findPositionByCodeSnippet`.  The escaping in
the source produces a syntactically valid pattern of literals and `\s+`,
so the `catch` branch guarding `new RegExp` is unreachable and the pass is
total. -/
def regexPassIdx (s doc : String) : Option Nat :=
  firstMatchAux (snippetTokens s) doc.data 0

/-- Significant words of the fuzzy pass: split on whitespace (empty split
artifacts are removed by the length filter), keep words longer than three
characters, use at most the first three. -/
def significantWords (s : String) : List (List Char) :=
  ((wsChunks s.data).filter (fun w => 3 < w.length)).take 3

/-- Loop of the fuzzy word-anchor pass: for each significant word in order,
look at the first literal occurrence in the document, extract the window of
fifty characters around it and accept when at least two of the significant
words occur in the window. -/
def fuzzyLoop (doc : String) (all : List (List Char)) :
    List (List Char) → Option (Nat × Nat)
  | [] => none
  | w :: rest =>
    match indexOfSub doc.data w with
    | none => fuzzyLoop doc all rest
    | some idx =>
      let contextStart := idx - 50
      let contextEnd := min doc.data.length (idx + 50)
      let context := (doc.data.drop contextStart).take (contextEnd - contextStart)
      if 2 ≤ (all.filter (fun w2 => containsSub context w2)).length then
        some (positionAt doc idx)
      else
        fuzzyLoop doc all rest

/-- Fuzzy word-anchor pass of `findPositionByCodeSnippet`. -/
def fuzzyPass (s doc : String) : Option (Nat × Nat) :=
  fuzzyLoop doc (significantWords s) (significantWords s)

/-- Embedding of `findPositionByCodeSnippet` of `src/llm-client.ts`:
absent or empty snippets resolve to nothing; otherwise the regex pass is
tried and, when it finds nothing, the fuzzy pass runs — but only for
snippets longer than fifteen characters. -/
def findPositionByCodeSnippet (snippet : Option String) (docText : String) :
    Option (Nat × Nat) :=
  match snippet with
  | none => none
  | some s =>
    if s = "" then none
    else
      match regexPassIdx s docText with
      | some i => some (positionAt docText i)
      | none => if 15 < s.length then fuzzyPass s docText else none

/-! ## The freeform parser of `src/extension.ts` -/

/-- The severity enumeration of `src/extension.ts` (`enum Severity`). -/
inductive Severity where
  | error
  | warning
  | info
  | hint
deriving DecidableEq, Repr

/-- The string value of each `Severity` member (`'error'`, `'warning'`,
`'info'`, `'hint'`), as interpolated into the deduplication key. -/
def sevValue : Severity → String
  | .error => "error"
  | .warning => "warning"
  | .info => "info"
  | .hint => "hint"

/-- The fields of a parsed review item that the specification claims are
about: severity, message content (capture 2, trimmed), and the optional
one-based inline line and column numbers (captures 3 and 4). -/
structure ReviewItem where
  severity : Severity
  message : String
  lineNumber : Option Nat
  colNumber : Option Nat
deriving DecidableEq, Repr

/-- Result of a successful match of the line regex
`/^\[(ERROR|WARNING|INFO|HINT)\]\s*:?\s*(.+?)(?:\s+\[Ln\s+(\d+)(?:,\s*Col\s+(\d+))?\])?$/i`:
the raw severity capture, the raw content capture and the optional numbers. -/
structure LineMatch where
  severityText : List Char
  content : List Char
  lineNumber : Option Nat
  colNumber : Option Nat
deriving DecidableEq, Repr

/-- Case-insensitive literal token at the head of the input (the severity
alternation is matched case-insensitively); returns the raw matched
characters and the remainder. -/
def tryToken (tok : List Char) (l : List Char) : Option (List Char × List Char) :=
  if (l.take tok.length).map Char.toUpper = tok then
    some (l.take tok.length, l.drop tok.length)
  else
    none

/-- The alternation `(ERROR|WARNING|INFO|HINT)` tried left to right.  The
four alternatives start with distinct letters, so at most one can match. -/
def severityTokenAt (l : List Char) : Option (List Char × List Char) :=
  (tryToken "ERROR".data l).orElse fun _ =>
    (tryToken "WARNING".data l).orElse fun _ =>
      (tryToken "INFO".data l).orElse fun _ =>
        tryToken "HINT".data l

/-- Decimal value of a digit run (`parseInt(match, 10)`). -/
def natOfDigits (ds : List Char) : Nat :=
  ds.foldl (fun a c => a * 10 + (c.toNat - 48)) 0

/-- The optional `(?:,\s*Col\s+(\d+))?\]$` tail of the inline position
group.  The group is greedy: the comma branch is committed to once the
comma is read (a shorter digit run can never expose a `]`, so no
backtracking into the digits is possible). -/
def colPart : List Char → Option (Option Nat)
  | ',' :: r =>
    let r1 := r.drop (wsRunLen r)
    if (r1.take 3).map Char.toUpper = "COL".data then
      let r2 := r1.drop 3
      if 0 < wsRunLen r2 then
        let r3 := r2.drop (wsRunLen r2)
        let ds := r3.takeWhile Char.isDigit
        if !ds.isEmpty && r3.drop ds.length = [']'] then
          some (some (natOfDigits ds))
        else none
      else none
    else none
  | [']'] => some none
  | _ => none

/-- The optional suffix `(?:\s+\[Ln\s+(\d+)(?:,\s*Col\s+(\d+))?\])?$` after
the lazy content capture: either the rest of the line is empty (group
absent, `$`), or it is whitespace, `[Ln`, whitespace, digits and the
`colPart` tail.  Every `\s+` is followed by a non-whitespace literal, so
the greedy run is deterministic. -/
def rexSuffix : List Char → Option (Option Nat × Option Nat)
  | [] => some (none, none)
  | l =>
    if 0 < wsRunLen l then
      match l.drop (wsRunLen l) with
      | '[' :: r =>
        if (r.take 2).map Char.toUpper = "LN".data then
          let r1 := r.drop 2
          if 0 < wsRunLen r1 then
            let r2 := r1.drop (wsRunLen r1)
            let ds := r2.takeWhile Char.isDigit
            if ds.isEmpty then none
            else
              match colPart (r2.drop ds.length) with
              | some copt => some (some (natOfDigits ds), copt)
              | none => none
          else none
        else none
      | _ => none
    else none

/-- The lazy content capture `(.+?)`: content lengths are tried in
ascending order, each character must not be a line terminator, and the
first length whose remainder satisfies `rexSuffix` wins. -/
def lazyContent (acc : List Char) : List Char → Option (List Char × Option Nat × Option Nat)
  | [] => none
  | c :: rest =>
    if notLineTerm c then
      match rexSuffix rest with
      | some (ln, col) => some (acc ++ [c], ln, col)
      | none => lazyContent (acc ++ [c]) rest
    else none

/-- Candidate content start points for `\s*:?\s*(.+?)`, in the priority
order of the backtracking engine: the first `\s*` is greedy (longest run
first), the optional colon is tried present before absent, and the second
`\s*` is greedy again. -/
def bodyStarts (l : List Char) : List (List Char) :=
  (List.range (wsRunLen l + 1)).flatMap fun t =>
    let l1 := l.drop (wsRunLen l - t)
    let colonBranch : List (List Char) :=
      match l1 with
      | ':' :: r => (List.range (wsRunLen r + 1)).map fun u => r.drop (wsRunLen r - u)
      | _ => []
    let plainBranch : List (List Char) :=
      (List.range (wsRunLen l1 + 1)).map fun u => l1.drop (wsRunLen l1 - u)
    colonBranch ++ plainBranch

/-- Matching of `\s*:?\s*(.+?)(?:\s+\[Ln\s+(\d+)(?:,\s*Col\s+(\d+))?\])?$`
on the text following `]`: the first candidate start point (in engine
order) at which the lazy content capture succeeds. -/
def matchBodyAfterBracket (l : List Char) : Option (List Char × Option Nat × Option Nat) :=
  (bodyStarts l).findSome? (lazyContent [])

/-- Full match of the severity line regex against one (already trimmed)
line: a literal `[`, the severity alternation, a literal `]`, and the
body.  Lines that do not match yield no finding. -/
def matchSeverityLine (line : List Char) : Option LineMatch :=
  match line with
  | '[' :: r =>
    match severityTokenAt r with
    | some (tok, r1) =>
      match r1 with
      | ']' :: r2 =>
        match matchBodyAfterBracket r2 with
        | some (content, ln, col) => some ⟨tok, content, ln, col⟩
        | none => none
      | _ => none
    | none => none
  | _ => none

/-- Severity normalization of `_parseReviewItems`: the capture is
uppercased and compared against the four tokens, defaulting to `Info`
(the default branch is unreachable because the alternation only matches
the four tokens). -/
def severityOfText (severityText : List Char) : Severity :=
  if severityText = "ERROR".data then .error
  else if severityText = "WARNING".data then .warning
  else if severityText = "INFO".data then .info
  else if severityText = "HINT".data then .hint
  else .info

/-- Construction of the review item from a line match, mirroring
`_parseReviewItems`: uppercased severity text, trimmed content, raw
one-based numbers kept as parsed. -/
def itemOfMatch (m : LineMatch) : ReviewItem :=
  { severity := severityOfText (m.severityText.map Char.toUpper)
    message := String.mk (jsTrim m.content)
    lineNumber := m.lineNumber
    colNumber := m.colNumber }

/-- Deduplication key
`` `${severity}-${content}-${lineNumber || 0}-${colNumber || 0}` `` of
`_parseReviewItems`; a missing line or column number contributes `0`. -/
def identKey (it : ReviewItem) : String :=
  sevValue it.severity ++ "-" ++ it.message ++ "-" ++
    toString (it.lineNumber.getD 0) ++ "-" ++ toString (it.colNumber.getD 0)

/-- Splitting on `'\n'` exactly as `String.prototype.split('\n')` does
(an empty tail segment is produced by a trailing newline). -/
def splitNl : List Char → List (List Char)
  | [] => [[]]
  | c :: r =>
    if c = '\n' then [] :: splitNl r
    else
      match splitNl r with
      | h :: t => (c :: h) :: t
      | [] => [[c]]

/-- First index of `<think>` and nearest following `</think>`; one
rewrite step of `text.replace(/<think>[\s\S]*?<\/think>/g, '')`.  Fuel is
the length of the text: every rewrite removes at least fifteen
characters, so the fuel never runs out. -/
def stripThinkAux : Nat → List Char → List Char
  | 0, l => l
  | fuel + 1, l =>
    match indexOfSub l "<think>".data with
    | none => l
    | some i =>
      let after := l.drop (i + 7)
      match indexOfSub after "</think>".data with
      | none => l
      | some j => l.take i ++ stripThinkAux fuel (after.drop (j + 8))

/-- Removal of all non-greedy `<think> … </think>` segments. -/
def stripThink (l : List Char) : List Char :=
  stripThinkAux l.length l

/-- Tail `\s*\d+:?\s*$` of the line-number-label test, applied after one
of the label words. -/
def numTail (r : List Char) : Bool :=
  let r1 := r.drop (wsRunLen r)
  let ds := r1.takeWhile Char.isDigit
  !ds.isEmpty &&
    (let r2 := r1.drop ds.length
     let r3 := match r2 with
       | ':' :: t => t
       | _ => r2
     (r3.drop (wsRunLen r3)).isEmpty)

/-- Lines that are only a line-number label, `/^(L|Line|行)\s*\d+:?\s*$/`
(case-sensitive, no `i` flag on this regex in the source). -/
def numberLabelOnly (l : List Char) : Bool :=
  ("Line".data.isPrefixOf l && numTail (l.drop 4)) ||
  ("L".data.isPrefixOf l && numTail (l.drop 1)) ||
  ("行".data.isPrefixOf l && numTail (l.drop 1))

/-- The line filter of `_parseReviewItems`: empty lines, reasoning-marker
lines, boilerplate preambles, structural markup and bare line-number
labels are dropped. -/
def keepLine (l : List Char) : Bool :=
  !l.isEmpty &&
  !("<think>".data.isPrefixOf l || "think ".data.isPrefixOf l) &&
  !("Here are".data.isPrefixOf l || "以下に".data.isPrefixOf l ||
    "レビュー結果".data.isPrefixOf l || "コードレビュー".data.isPrefixOf l ||
    "指摘事項".data.isPrefixOf l ||
    containsSub l "---".data || containsSub l "===".data ||
    containsSub l "###".data || containsSub l "```".data ||
    "#".data.isPrefixOf l) &&
  !numberLabelOnly l

/-- Leading bullet marker removal
`line.replace(/^[\s•\-\*\+・・・・]\s*/, '').trim()`: one character of the
class, the following whitespace run, then a trim. -/
def stripBullet (l : List Char) : List Char :=
  jsTrim
    (match l with
     | c :: r =>
       if isSpace c || c == '•' || c == '-' || c == '*' || c == '+' || c == '・' then
         r.drop (wsRunLen r)
       else l
     | [] => l)

/-- The line preprocessing of `_parseReviewItems`: strip reasoning
segments, split into lines, trim each, filter, strip bullets. -/
def parsedLines (text : String) : List (List Char) :=
  (((splitNl (stripThink text.data)).map jsTrim).filter keepLine).map stripBullet

/-- The matched review items of the freeform text, in line order, before
deduplication. -/
def matchedItems (text : String) : List ReviewItem :=
  (parsedLines text).filterMap fun l => (matchSeverityLine l).map itemOfMatch

/-- First-occurrence deduplication by identity key (the `uniqueReviews`
set of `_parseReviewItems`). -/
def dedupByKeyAux (seen : List String) : List ReviewItem → List ReviewItem
  | [] => []
  | x :: xs =>
    if identKey x ∈ seen then dedupByKeyAux seen xs
    else x :: dedupByKeyAux (identKey x :: seen) xs

/-- Deduplicated review items, first occurrence per key surviving. -/
def dedupByKey (l : List ReviewItem) : List ReviewItem :=
  dedupByKeyAux [] l

/-- The comparator of the final sort as a Boolean relation: the comparator
returns `a.lineNumber - b.lineNumber` for two present numbers, `0` when
both are absent, and pushes an absent number after any present one; `lnLE
a b` holds exactly when the comparator result is not positive. -/
def lnKeyLE : Option Nat → Option Nat → Bool
  | none, none => true
  | none, some _ => false
  | some _, none => true
  | some x, some y => x ≤ y

/-- The comparator applied to two items. -/
def lnLE (a b : ReviewItem) : Bool :=
  lnKeyLE a.lineNumber b.lineNumber

theorem lnKeyLE_total (m n : Option Nat) : lnKeyLE m n = true ∨ lnKeyLE n m = true := by
  rcases m with _ | x <;> rcases n with _ | y <;> simp [lnKeyLE] <;> omega

theorem lnKeyLE_trans (m n k : Option Nat) (h1 : lnKeyLE m n = true)
    (h2 : lnKeyLE n k = true) : lnKeyLE m k = true := by
  rcases m with _ | x <;> rcases n with _ | y <;> rcases k with _ | z <;>
    simp_all [lnKeyLE] <;> omega

/-- The sort relation as a proposition. -/
def lnRel (a b : ReviewItem) : Prop := lnLE a b = true

instance : DecidableRel lnRel := fun a b =>
  inferInstanceAs (Decidable (lnLE a b = true))

instance : IsTotal ReviewItem lnRel where
  total a b := lnKeyLE_total a.lineNumber b.lineNumber

instance : IsTrans ReviewItem lnRel where
  trans a b c hab hbc := lnKeyLE_trans _ _ _ hab hbc

/-- Embedding of `_parseReviewItems` of `src/extension.ts`: preprocess the
lines, match the severity regex, deduplicate by identity key keeping first
occurrences, and sort ascending by line number with positionless items
last.  `Array.prototype.sort` is stable, and the comparator is induced by
a total preorder on the line-number key, so a stable insertion sort by
`lnRel` produces the same list. -/
def parseReviewItems (text : String) : List ReviewItem :=
  List.insertionSort lnRel (dedupByKey (matchedItems text))

/-- Position conversion of `updateDiagnostics`: an explicit inline line
number is one-based in the text and converted to a zero-based line
(`parseInt(...) - 1`); an absent number falls back to line `0`. -/
def diagnosticLine (it : ReviewItem) : Int :=
  match it.lineNumber with
  | some n => (n : Int) - 1
  | none => 0

/-- Column conversion of `updateDiagnostics`: the inline column number is
used as is (`parseInt(...)`, no decrement), defaulting to `0`. -/
def diagnosticColumn (it : ReviewItem) : Nat :=
  it.colNumber.getD 0

/-! ## The structured path of `src/llm-client.ts` -/

/-- One entry of the structured `reviews` payload (the `ReviewItem`
interface of `src/llm-client.ts`); the severity is a runtime string, the
TypeScript enumeration annotation is not enforced on parsed JSON. -/
structure ReviewPayloadItem where
  severity : String
  message : String
  codeSnippet : Option String
deriving DecidableEq, Repr

/-- The ` [Ln X, Col Y]` location suffix appended by
`formatFunctionCallResults`: the line is emitted one-based
(`position.line + 1`), the column is emitted as is. -/
def locationText (pos : Option (Nat × Nat)) : String :=
  match pos with
  | some (l, c) => " [Ln " ++ toString (l + 1) ++ ", Col " ++ toString c ++ "]"
  | none => ""

/-- Embedding of `formatFunctionCallResults` of `src/llm-client.ts`: each
structured entry is rendered as `[severity]message` plus the location
suffix obtained by resolving its snippet, and the lines are joined with
newlines.  The surrounding guard for a missing `reviews` array is the
callers concern and out of this definition. -/
def formatFunctionCallResults (reviews : List ReviewPayloadItem) (docText : String) : String :=
  String.intercalate "\n"
    (reviews.map fun r =>
      "[" ++ r.severity ++ "]" ++ r.message ++
        locationText (findPositionByCodeSnippet r.codeSnippet docText))

/-! ## The result store of `src/extension.ts` (`ReviewTreeDataProvider`) -/

/-- Insertion-ordered map semantics of the JavaScript `Map` backing
`_reviewItemsByFile`: `set` replaces in place, otherwise appends. -/
def mapSet (m : List (String × List ReviewItem)) (k : String) (v : List ReviewItem) :
    List (String × List ReviewItem) :=
  match m with
  | [] => [(k, v)]
  | (a, b) :: t => if a = k then (k, v) :: t else (a, b) :: mapSet t k v

/-- JavaScript `Map.delete`: the entry for the key is removed. -/
def mapDelete (m : List (String × List ReviewItem)) (k : String) :
    List (String × List ReviewItem) :=
  match m with
  | [] => []
  | (a, b) :: t => if a = k then t else (a, b) :: mapDelete t k

/-- JavaScript `Map.get` as an option. -/
def mapGet (m : List (String × List ReviewItem)) (k : String) : Option (List ReviewItem) :=
  match m with
  | [] => none
  | (a, b) :: t => if a = k then some b else mapGet t k

/-- The aggregate review count: the sum of the item-list lengths over all
entries of the map, recomputed by `update` and `updateBadge`. -/
def totalCount (m : List (String × List ReviewItem)) : Nat :=
  (m.map fun p => p.2.length).sum

/-- The tree-view badge value derived from the aggregate count: a badge
with that value when it is positive, no badge otherwise. -/
def badgeOf (n : Nat) : Option Nat :=
  if 0 < n then some n else none

/-- Observable state of `ReviewTreeDataProvider`: the per-URI map, the
badge, and the number of change notifications fired so far
(`_onDidChangeTreeData.fire()` calls). -/
structure ReviewStore where
  reviewItemsByFile : List (String × List ReviewItem)
  badge : Option Nat
  notifications : Nat
deriving DecidableEq, Repr

/-- The freshly constructed provider: empty map, no badge, no
notifications fired. -/
def emptyStore : ReviewStore :=
  { reviewItemsByFile := [], badge := none, notifications := 0 }

/-- Embedding of `update(uriString, text)`: parse the text, wholesale
replace the entry for the URI, recompute the aggregate count, set the
badge accordingly, and fire exactly one change notification. -/
def ReviewStore.update (s : ReviewStore) (uriString text : String) : ReviewStore :=
  let items := parseReviewItems text
  let m := mapSet s.reviewItemsByFile uriString items
  { reviewItemsByFile := m
    badge := badgeOf (totalCount m)
    notifications := s.notifications + 1 }

/-- Embedding of `clearFileReviews(uriString)`: when the URI has an entry,
remove it, recompute the badge and fire one notification; otherwise the
tree state is untouched and nothing fires. -/
def ReviewStore.clearFileReviews (s : ReviewStore) (uriString : String) : ReviewStore :=
  if (mapGet s.reviewItemsByFile uriString).isSome then
    let m := mapDelete s.reviewItemsByFile uriString
    { reviewItemsByFile := m
      badge := badgeOf (totalCount m)
      notifications := s.notifications + 1 }
  else s

/-- The current finding list for a URI: the map entry, or empty when the
URI has none. -/
def getFindings (s : ReviewStore) (uri : String) : List ReviewItem :=
  (mapGet s.reviewItemsByFile uri).getD []

/-- The mutations the store exposes. -/
inductive StoreOp where
  | update (uri text : String)
  | clear (uri : String)
deriving DecidableEq, Repr

/-- One mutation applied to a store state. -/
def applyOp (s : ReviewStore) : StoreOp → ReviewStore
  | .update uri text => s.update uri text
  | .clear uri => s.clearFileReviews uri

/-- A whole session: mutations applied in order to the fresh store. -/
def runOps (ops : List StoreOp) : ReviewStore :=
  ops.foldl applyOp emptyStore

/-! ## Properties of the leftmost-match scan -/

theorem firstMatchAux_some (toks : List (List Char)) :
    ∀ (l : List Char) (idx r : Nat), firstMatchAux toks l idx = some r →
      idx ≤ r ∧ matchPat toks (l.drop (r - idx)) = true ∧
        ∀ m, m < r - idx → matchPat toks (l.drop m) = false := by
  intro l
  induction l with
  | nil =>
    intro idx r h
    rw [firstMatchAux] at h
    split at h
    · rename_i hm
      obtain rfl : idx = r := by simpa using h
      refine ⟨le_refl _, by simpa using hm, ?_⟩
      intro m hm'
      omega
    · simp at h
  | cons c t ih =>
    intro idx r h
    rw [firstMatchAux] at h
    split at h
    · rename_i hm
      obtain rfl : idx = r := by simpa using h
      refine ⟨le_refl _, by simpa using hm, ?_⟩
      intro m hm'
      omega
    · rename_i hm
      obtain ⟨h1, h2, h3⟩ := ih (idx + 1) r h
      refine ⟨by omega, ?_, ?_⟩
      · have hdrop : (c :: t).drop (r - idx) = t.drop (r - (idx + 1)) := by
          rw [show r - idx = (r - (idx + 1)) + 1 by omega]
          simp
        rw [hdrop]
        exact h2
      · intro m hm'
        match m with
        | 0 =>
          simpa using eq_false_of_ne_true hm
        | Nat.succ m' =>
          have : (c :: t).drop (m' + 1) = t.drop m' := by simp
          rw [this]
          exact h3 m' (by omega)

theorem firstMatchAux_isSome (toks : List (List Char)) :
    ∀ (l : List Char) (idx k : Nat), matchPat toks (l.drop k) = true →
      (firstMatchAux toks l idx).isSome := by
  intro l
  induction l with
  | nil =>
    intro idx k h
    simp only [List.drop_nil] at h
    rw [firstMatchAux, if_pos h]
    rfl
  | cons c t ih =>
    intro idx k h
    rw [firstMatchAux]
    split
    · rfl
    · rename_i hm
      match k with
      | 0 =>
        simp only [List.drop_zero] at h
        exact absurd h hm
      | Nat.succ k' =>
        exact ih (idx + 1) k' (by simpa using h)

/-- C4: for every document and snippet, whenever the snippet has a
whitespace-tolerant match somewhere in the document (in particular for a
snippet taken verbatim from the document with whitespace runs altered),
the resolver returns a non-absent position, namely the position of the
first (leftmost) whitespace-tolerant match, with the line the count of
newlines before the match offset. -/
theorem claim_C4 (S D : String) (i : Nat) (hS : S ≠ "")
    (hm : snippetMatchAt S D i = true) :
    ∃ i₀, regexPassIdx S D = some i₀ ∧
      findPositionByCodeSnippet (some S) D = some (positionAt D i₀) ∧
      snippetMatchAt S D i₀ = true ∧ ∀ j, j < i₀ → snippetMatchAt S D j = false := by
  have hs := firstMatchAux_isSome (snippetTokens S) D.data 0 i hm
  obtain ⟨r, hr⟩ := Option.isSome_iff_exists.mp hs
  obtain ⟨-, h2, h3⟩ := firstMatchAux_some _ _ _ _ hr
  have hri : regexPassIdx S D = some r := hr
  refine ⟨r, hri, ?_, ?_, ?_⟩
  · simp [findPositionByCodeSnippet, hS, hri]
  · simpa [snippetMatchAt] using h2
  · intro j hj
    simpa [snippetMatchAt] using h3 j (by omega)

/-- C4 witness: the snippet `"const   x = 1"` occurs in
`"let y = 2\nconst x = 1"` up to whitespace (offset 10), so the resolver
returns the position of the first whitespace-tolerant match. -/
theorem claim_C4_witness :
    ∃ i₀, regexPassIdx "const   x = 1" "let y = 2\nconst x = 1" = some i₀ ∧
      findPositionByCodeSnippet (some "const   x = 1") "let y = 2\nconst x = 1" =
        some (positionAt "let y = 2\nconst x = 1" i₀) ∧
      snippetMatchAt "const   x = 1" "let y = 2\nconst x = 1" i₀ = true ∧
      ∀ j, j < i₀ → snippetMatchAt "const   x = 1" "let y = 2\nconst x = 1" j = false :=
  claim_C4 "const   x = 1" "let y = 2\nconst x = 1" 10 (by decide) (by decide)

/-- C5: the resolver is a total function (the escaped pattern is always
well formed, so the `catch` recovery never surfaces an error), and when
the regex pass finds no match the fuzzy word-anchor pass is attempted
exactly when the original snippet is longer than fifteen characters,
otherwise the result is absent. -/
theorem claim_C5 (s doc : String) (h : regexPassIdx s doc = none) :
    findPositionByCodeSnippet (some s) doc =
      if 15 < s.length then fuzzyPass s doc else none := by
  have hs : s ≠ "" := by
    intro he
    subst he
    rw [regexPassIdx] at h
    have htok : snippetTokens "" = [] := rfl
    rw [htok, firstMatchAux.eq_def] at h
    simp [matchPat] at h
  simp [findPositionByCodeSnippet, hs, h]

/-- C5 witness: the four-character snippet `"zzzz"` does not occur in
`"abc"`, the fuzzy pass is skipped (length not above fifteen) and the
resolver returns absent. -/
theorem claim_C5_witness :
    regexPassIdx "zzzz" "abc" = none ∧
      findPositionByCodeSnippet (some "zzzz") "abc" =
        (if 15 < ("zzzz" : String).length then fuzzyPass "zzzz" "abc" else none) :=
  ⟨by decide, claim_C5 "zzzz" "abc" (by decide)⟩

/-- C10: a non-empty snippet consisting only of whitespace passes the
falsy-string guard, escapes and trims to the empty pattern, and the empty
pattern matches at offset zero of any document, so the resolver returns
position `(0, 0)` rather than absent. -/
theorem claim_C10 (s D : String) (h1 : s ≠ "") (h2 : ∀ c ∈ s.data, isSpace c = true) :
    findPositionByCodeSnippet (some s) D = some (0, 0) := by
  have htrim : jsTrim s.data = [] := by
    have hd : List.dropWhile isSpace s.data = [] :=
      List.dropWhile_eq_nil_iff.mpr fun x hx => h2 x hx
    unfold jsTrim
    rw [hd]
    rfl
  have hidx : regexPassIdx s D = some 0 := by
    rw [regexPassIdx, snippetTokens, htrim]
    rw [show wsChunks [] = [] from rfl, firstMatchAux.eq_def]
    simp [matchPat]
  have hpos : positionAt D 0 = (0, 0) := by
    simp [positionAt]
  simp [findPositionByCodeSnippet, h1, hidx, hpos]

/-- C10 witness: the single-space snippet resolves to `(0, 0)` in the
document `"abc"`. -/
theorem claim_C10_witness :
    findPositionByCodeSnippet (some " ") "abc" = some (0, 0) :=
  claim_C10 " " "abc" (by decide) (by decide)

/-- C1: the freeform input
`"[ERROR] null pointer risk in getUser [Ln 12, Col 4]\n[HINT]: rename variable x"`
parses to exactly two findings: an Error with message
`"null pointer risk in getUser"` carrying the inline one-based position
`Ln 12, Col 4`, which the diagnostics conversion turns into zero-based
line `11` and column `4` (the line is decremented, the column is used as
is), and a Hint with message `"rename variable x"` and no position. -/
theorem claim_C1 :
    parseReviewItems
        "[ERROR] null pointer risk in getUser [Ln 12, Col 4]\n[HINT]: rename variable x" =
      [{ severity := .error, message := "null pointer risk in getUser",
         lineNumber := some 12, colNumber := some 4 },
       { severity := .hint, message := "rename variable x",
         lineNumber := none, colNumber := none }] ∧
    diagnosticLine
        { severity := .error, message := "null pointer risk in getUser",
          lineNumber := some 12, colNumber := some 4 } = 11 ∧
    diagnosticColumn
        { severity := .error, message := "null pointer risk in getUser",
          lineNumber := some 12, colNumber := some 4 } = 4 := by
  decide

/-- C7: the structured payload with two identical `warning`/`"m"` entries
is formatted to two identical lines, and identity-key deduplication in the
parser leaves exactly one Warning finding, whatever the document text is
(no snippet is present, so the document is never consulted). -/
theorem claim_C7 (docText : String) :
    parseReviewItems
        (formatFunctionCallResults
          [⟨"warning", "m", none⟩, ⟨"warning", "m", none⟩] docText) =
      [{ severity := .warning, message := "m", lineNumber := none, colNumber := none }] := by
  have hfmt :
      formatFunctionCallResults
          [⟨"warning", "m", none⟩, ⟨"warning", "m", none⟩] docText =
        "[warning]m\n[warning]m" := rfl
  rw [hfmt]
  decide

/-- C6 counterexample: a structured entry with the unrecognized severity
token `CRITICAL` is formatted verbatim and then dropped by the parser —
no finding at all is produced, in particular none defaulted to Info, so
the claim that the structured path defaults such entries to Info is false
on this input. -/
theorem claim_C6_counterexample :
    parseReviewItems (formatFunctionCallResults [⟨"CRITICAL", "m", none⟩] "") = [] := by
  decide

/-- C6 (amended): an entry whose severity token is not in
`{ERROR, WARNING, INFO, HINT}` yields no finding in the freeform path —
whatever follows the bracketed token, the line is dropped — and the
structured path emits the token verbatim into the intermediate text, after
which the parser likewise drops the line; it is not defaulted to Info. -/
theorem claim_C6 :
    (∀ msg : String, matchSeverityLine ("[CRITICAL]".data ++ msg.data) = none) ∧
    parseReviewItems (formatFunctionCallResults [⟨"CRITICAL", "m", none⟩] "") = [] := by
  constructor
  · intro msg
    rfl
  · decide

/-! ## Properties of deduplication and the final sort -/

theorem dedupByKeyAux_mem (x : ReviewItem) :
    ∀ (l : List ReviewItem) (seen : List String), x ∈ dedupByKeyAux seen l →
      identKey x ∉ seen ∧
        l.find? (fun y => identKey y == identKey x) = some x := by
  intro l
  induction l with
  | nil =>
    intro seen hx
    simp [dedupByKeyAux] at hx
  | cons z zs ih =>
    intro seen hx
    rw [dedupByKeyAux] at hx
    split at hx
    · rename_i hz
      obtain ⟨hns, hfind⟩ := ih seen hx
      have hne : (identKey z == identKey x) = false := by
        rw [beq_eq_false_iff_ne]
        intro he
        exact hns (he ▸ hz)
      exact ⟨hns, by rw [List.find?_cons_of_neg _ (by simp [hne]), hfind]⟩
    · rename_i hz
      rcases List.mem_cons.mp hx with rfl | hx'
      · exact ⟨hz, by rw [List.find?_cons_of_pos _ (by simp)]⟩
      · obtain ⟨hns, hfind⟩ := ih (identKey z :: seen) hx'
        have hxz : identKey x ≠ identKey z := fun he => hns (by simp [he])
        have hxs : identKey x ∉ seen := fun he => hns (by simp [he])
        have hne : (identKey z == identKey x) = false := by
          rw [beq_eq_false_iff_ne]
          exact fun he => hxz he.symm
        exact ⟨hxs, by rw [List.find?_cons_of_neg _ (by simp [hne]), hfind]⟩

theorem dedupByKeyAux_nodup :
    ∀ (l : List ReviewItem) (seen : List String),
      ((dedupByKeyAux seen l).map identKey).Nodup := by
  intro l
  induction l with
  | nil =>
    intro seen
    simp [dedupByKeyAux]
  | cons z zs ih =>
    intro seen
    rw [dedupByKeyAux]
    split
    · exact ih seen
    · rename_i hz
      simp only [List.map_cons, List.nodup_cons]
      refine ⟨?_, ih (identKey z :: seen)⟩
      intro hmem
      obtain ⟨y, hy, hkey⟩ := List.mem_map.mp hmem
      have := (dedupByKeyAux_mem y zs (identKey z :: seen) hy).1
      exact this (by simp [hkey])

/-- C2: the identity keys of the findings returned by the freeform parser
are pairwise distinct, and every returned finding is the first matched
line (in line order) carrying its identity key — deduplication keeps first
occurrences, and the final sort only permutes the survivors. -/
theorem claim_C2 (text : String) :
    ((parseReviewItems text).map identKey).Nodup ∧
    ∀ it ∈ parseReviewItems text,
      (matchedItems text).find? (fun y => identKey y == identKey it) = some it := by
  constructor
  · have hperm : List.Perm (parseReviewItems text) (dedupByKey (matchedItems text)) :=
      List.perm_insertionSort lnRel _
    exact ((hperm.map identKey).nodup_iff).mpr (dedupByKeyAux_nodup _ [])
  · intro it hit
    have hmem : it ∈ dedupByKey (matchedItems text) :=
      (List.mem_insertionSort lnRel).mp hit
    exact (dedupByKeyAux_mem it (matchedItems text) [] hmem).2

/-- C2 witness: on the input with a duplicated Error line the parsed keys
are distinct and the surviving Error finding is the first matching line. -/
theorem claim_C2_witness :
    ((parseReviewItems "[ERROR] a\n[ERROR] a\n[HINT] b").map identKey).Nodup ∧
      (matchedItems "[ERROR] a\n[ERROR] a\n[HINT] b").find?
          (fun y => identKey y ==
            identKey { severity := .error, message := "a",
                       lineNumber := none, colNumber := none }) =
        some { severity := .error, message := "a",
               lineNumber := none, colNumber := none } :=
  ⟨(claim_C2 "[ERROR] a\n[ERROR] a\n[HINT] b").1,
   (claim_C2 "[ERROR] a\n[ERROR] a\n[HINT] b").2 _ (by decide)⟩

theorem lnLE_of_key_eq {a b : ReviewItem} (h : a.lineNumber = b.lineNumber) :
    lnLE a b = true := by
  rw [lnLE, h]
  rcases b.lineNumber with _ | y <;> simp [lnKeyLE]

theorem filter_orderedInsert_pos (k : Option Nat) (x : ReviewItem)
    (hx : (x.lineNumber == k) = true) :
    ∀ s : List ReviewItem,
      (List.orderedInsert lnRel x s).filter (fun it => it.lineNumber == k) =
        x :: s.filter (fun it => it.lineNumber == k) := by
  intro s
  induction s with
  | nil => simp [hx]
  | cons y ys ih =>
    rw [List.orderedInsert]
    split
    · simp [hx]
    · rename_i hr
      have hy : (y.lineNumber == k) = false := by
        rw [beq_eq_false_iff_ne]
        intro he
        exact hr (lnLE_of_key_eq (he.trans (beq_iff_eq.mp hx).symm).symm)
      rw [List.filter_cons_of_neg (by simp [hy]), ih,
        List.filter_cons_of_neg (by simp [hy])]

theorem filter_orderedInsert_neg (k : Option Nat) (x : ReviewItem)
    (hx : (x.lineNumber == k) = false) :
    ∀ s : List ReviewItem,
      (List.orderedInsert lnRel x s).filter (fun it => it.lineNumber == k) =
        s.filter (fun it => it.lineNumber == k) := by
  intro s
  induction s with
  | nil => simp [hx]
  | cons y ys ih =>
    rw [List.orderedInsert]
    split
    · simp [hx]
    · rcases hy : (y.lineNumber == k) with _ | _
      · rw [List.filter_cons_of_neg (by simp [hy]), ih,
          List.filter_cons_of_neg (by simp [hy])]
      · rw [List.filter_cons_of_pos (by simp [hy]), ih,
          List.filter_cons_of_pos (by simp [hy])]

theorem insertionSort_filter_key (k : Option Nat) :
    ∀ l : List ReviewItem,
      (List.insertionSort lnRel l).filter (fun it => it.lineNumber == k) =
        l.filter (fun it => it.lineNumber == k) := by
  intro l
  induction l with
  | nil => rfl
  | cons x xs ih =>
    rw [List.insertionSort]
    rcases hp : (x.lineNumber == k) with _ | _
    · rw [filter_orderedInsert_neg k x hp _, ih,
        List.filter_cons_of_neg (by simp [hp])]
    · rw [filter_orderedInsert_pos k x hp _, ih,
        List.filter_cons_of_pos (by simp [hp])]

/-- C3: the parser output is sorted ascending by line number with
positionless findings last (the relation `lnRel` holds pairwise), and the
relative order of findings with the same line-number key (including the
absent key) is the order of the deduplicated matched lines — the sort is
stable. -/
theorem claim_C3 (text : String) :
    List.Sorted lnRel (parseReviewItems text) ∧
    ∀ k : Option Nat,
      (parseReviewItems text).filter (fun it => it.lineNumber == k) =
        (dedupByKey (matchedItems text)).filter (fun it => it.lineNumber == k) :=
  ⟨List.sorted_insertionSort lnRel _, fun k => insertionSort_filter_key k _⟩

/-! ## Properties of the result store -/

theorem mapGet_mapSet_self :
    ∀ (m : List (String × List ReviewItem)) (k : String) (v : List ReviewItem),
      mapGet (mapSet m k v) k = some v := by
  intro m
  induction m with
  | nil =>
    intro k v
    simp [mapSet, mapGet]
  | cons p t ih =>
    intro k v
    obtain ⟨a, b⟩ := p
    rw [mapSet]
    split
    · simp [mapGet]
    · rename_i ha
      rw [mapGet, if_neg ha]
      exact ih k v

theorem mapSet_idem :
    ∀ (m : List (String × List ReviewItem)) (k : String) (v : List ReviewItem),
      mapSet (mapSet m k v) k v = mapSet m k v := by
  intro m
  induction m with
  | nil =>
    intro k v
    simp [mapSet]
  | cons p t ih =>
    intro k v
    obtain ⟨a, b⟩ := p
    rw [mapSet]
    split
    · simp [mapSet]
    · rename_i ha
      rw [mapSet, if_neg ha, ih]

/-- C8: `update` wholesale-replaces the entry for the URI (an immediate
`get` returns exactly the parsed list) and fires exactly one change
notification; calling `update` twice with the same URI and text leaves the
map and the badge in the same observable state as one call and has fired
exactly two notifications. -/
theorem claim_C8 (s : ReviewStore) (uri text : String) :
    getFindings (s.update uri text) uri = parseReviewItems text ∧
    (s.update uri text).notifications = s.notifications + 1 ∧
    ((s.update uri text).update uri text).reviewItemsByFile =
      (s.update uri text).reviewItemsByFile ∧
    ((s.update uri text).update uri text).badge = (s.update uri text).badge ∧
    ((s.update uri text).update uri text).notifications = s.notifications + 2 := by
  refine ⟨?_, rfl, ?_, ?_, rfl⟩
  · rw [getFindings]
    simp only [ReviewStore.update]
    rw [mapGet_mapSet_self]
    rfl
  · simp only [ReviewStore.update]
    rw [mapSet_idem]
  · simp only [ReviewStore.update]
    rw [mapSet_idem]

theorem mem_keys_mapSet {x k : String} {v : List ReviewItem} :
    ∀ m : List (String × List ReviewItem),
      x ∈ (mapSet m k v).map Prod.fst → x ∈ m.map Prod.fst ∨ x = k := by
  intro m
  induction m with
  | nil =>
    intro h
    right
    simpa [mapSet] using h
  | cons p t ih =>
    obtain ⟨a, b⟩ := p
    intro h
    rw [mapSet] at h
    by_cases ha : a = k
    · rw [if_pos ha] at h
      simp only [List.map_cons] at h
      rcases List.mem_cons.mp h with rfl | h'
      · exact Or.inr rfl
      · exact Or.inl (List.mem_cons_of_mem _ h')
    · rw [if_neg ha] at h
      simp only [List.map_cons] at h
      rcases List.mem_cons.mp h with rfl | h'
      · exact Or.inl (List.mem_cons_self _ _)
      · rcases ih h' with h'' | h''
        · exact Or.inl (List.mem_cons_of_mem _ h'')
        · exact Or.inr h''

theorem keys_mapSet_nodup {k : String} {v : List ReviewItem} :
    ∀ m : List (String × List ReviewItem),
      (m.map Prod.fst).Nodup → ((mapSet m k v).map Prod.fst).Nodup := by
  intro m
  induction m with
  | nil =>
    intro _
    simp [mapSet]
  | cons p t ih =>
    obtain ⟨a, b⟩ := p
    intro h
    simp only [List.map_cons, List.nodup_cons] at h
    obtain ⟨ha, ht⟩ := h
    rw [mapSet]
    by_cases hak : a = k
    · rw [if_pos hak]
      simp only [List.map_cons, List.nodup_cons]
      exact ⟨hak ▸ ha, ht⟩
    · rw [if_neg hak]
      simp only [List.map_cons, List.nodup_cons]
      refine ⟨?_, ih ht⟩
      intro hmem
      rcases mem_keys_mapSet t hmem with h' | h'
      · exact ha h'
      · exact hak h'

theorem keys_mapDelete_sublist (k : String) :
    ∀ m : List (String × List ReviewItem),
      List.Sublist ((mapDelete m k).map Prod.fst) (m.map Prod.fst) := by
  intro m
  induction m with
  | nil => simp [mapDelete]
  | cons p t ih =>
    obtain ⟨a, b⟩ := p
    rw [mapDelete]
    split
    · exact List.sublist_cons_of_sublist _ (List.Sublist.refl _)
    · simpa using List.Sublist.cons₂ a ih

theorem mapGet_eq_some_of_mem {k : String} {v : List ReviewItem} :
    ∀ m : List (String × List ReviewItem),
      (m.map Prod.fst).Nodup → (k, v) ∈ m → mapGet m k = some v := by
  intro m
  induction m with
  | nil =>
    intro _ h
    simp at h
  | cons p t ih =>
    obtain ⟨a, b⟩ := p
    intro hnd hmem
    simp only [List.map_cons, List.nodup_cons] at hnd
    obtain ⟨ha, ht⟩ := hnd
    rcases List.mem_cons.mp hmem with he | hmem'
    · obtain ⟨rfl, rfl⟩ := Prod.mk.inj he
      simp [mapGet]
    · have hak : a ≠ k := by
        intro hk
        apply ha
        rw [hk]
        exact List.mem_map_of_mem Prod.fst hmem'
      rw [mapGet, if_neg hak]
      exact ih ht hmem'

/-- The invariant preserved by every store mutation: the badge is derived
from the recomputed aggregate count, and the map has pairwise distinct
keys. -/
def storeInv (s : ReviewStore) : Prop :=
  s.badge = badgeOf (totalCount s.reviewItemsByFile) ∧
    (s.reviewItemsByFile.map Prod.fst).Nodup

theorem storeInv_applyOp {s : ReviewStore} (h : storeInv s) (op : StoreOp) :
    storeInv (applyOp s op) := by
  obtain ⟨hb, hn⟩ := h
  cases op with
  | update uri text =>
    exact ⟨rfl, keys_mapSet_nodup _ hn⟩
  | clear uri =>
    rw [applyOp, ReviewStore.clearFileReviews]
    split
    · exact ⟨rfl, ((keys_mapDelete_sublist uri _).nodup hn)⟩
    · exact ⟨hb, hn⟩

theorem storeInv_runOps (ops : List StoreOp) : storeInv (runOps ops) := by
  rw [runOps]
  have hstep : ∀ (l : List StoreOp) (s : ReviewStore), storeInv s →
      storeInv (l.foldl applyOp s) := by
    intro l
    induction l with
    | nil => intro s hs; exact hs
    | cons op t ih =>
      intro s hs
      exact ih _ (storeInv_applyOp hs op)
  exact hstep ops emptyStore ⟨rfl, by simp [emptyStore]⟩

/-- C9: after every sequence of store mutations, the badge is exactly the
recomputed aggregate count (absent when the count is zero), that count is
the sum of the lengths of the finding lists over all current entries — the
URIs updated and not since cleared, since `update` inserts the entry and
`clearFileReviews` removes it — and every entry is what `get` returns for
its URI. -/
theorem claim_C9 (ops : List StoreOp) :
    (runOps ops).badge = badgeOf (totalCount (runOps ops).reviewItemsByFile) ∧
    (runOps ops).badge.getD 0 = totalCount (runOps ops).reviewItemsByFile ∧
    ∀ p ∈ (runOps ops).reviewItemsByFile, getFindings (runOps ops) p.1 = p.2 := by
  obtain ⟨hb, hn⟩ := storeInv_runOps ops
  refine ⟨hb, ?_, ?_⟩
  · rw [hb, badgeOf]
    split
    · rfl
    · rename_i hz
      simp
      omega
  · intro p hp
    rw [getFindings, mapGet_eq_some_of_mem _ hn (by simpa using hp)]
    rfl

/-- C9 witness: a concrete session with one update and one (ineffective)
clear, on which the badge equations hold and `get` returns the stored
entry. -/
theorem claim_C9_witness :
    (runOps [StoreOp.update "file:///a" "[ERROR] boom", StoreOp.clear "file:///b"]).badge =
      badgeOf (totalCount
        (runOps [StoreOp.update "file:///a" "[ERROR] boom",
          StoreOp.clear "file:///b"]).reviewItemsByFile) ∧
    getFindings
        (runOps [StoreOp.update "file:///a" "[ERROR] boom", StoreOp.clear "file:///b"])
        "file:///a" =
      [{ severity := .error, message := "boom", lineNumber := none, colNumber := none }] :=
  ⟨(claim_C9 [StoreOp.update "file:///a" "[ERROR] boom", StoreOp.clear "file:///b"]).1,
   (claim_C9 [StoreOp.update "file:///a" "[ERROR] boom", StoreOp.clear "file:///b"]).2.2
     ("file:///a",
      [{ severity := .error, message := "boom", lineNumber := none, colNumber := none }])
     (by decide)⟩
